import Mathlib

/-!
Verification of the seq2seq inference module (`seq2seq/inference/inference.py`).

The development embeds the three core functions of that file:

* `unk_replace` — replaces `"UNK"` tokens in a predicted sequence with the
  source token carrying the highest attention score, optionally remapped
  through a lookup table;
* `create_predictions_iter` — flattens a sequence of batched field
  dictionaries into per-example prediction records;
* `get_unk_mapping` — parses a tab-separated two-column file into a lookup
  table.

Python dictionaries are modelled as insertion-ordered association lists
(CPython's documented behaviour: updating an existing key keeps its
position, new keys are appended).  Fallible operations (out-of-range
indexing, `np.argmax` on an empty row, `dict` construction from a
one-element row) return `Option`, with `none` standing for a raised
exception.  Attention scores are taken in an arbitrary linear order,
standing in for the numeric numpy entries.
-/

set_option autoImplicit false

universe u v

/-- Lookup in an insertion-ordered association list, the model of reading
`d[k]` from a Python dict (the list never holds a duplicate key when built
by `dictInsert`). -/
def dictGet {α : Type u} {β : Type v} [DecidableEq α] : List (α × β) → α → Option β
  | [], _ => none
  | p :: rest, k => if p.1 = k then some p.2 else dictGet rest k

/-- Model of `d[k] = v` on a Python dict: an existing key keeps its
position and gets the new value, a fresh key is appended at the end. -/
def dictInsert {α : Type u} {β : Type v} [DecidableEq α] : List (α × β) → α → β → List (α × β)
  | [], k, v => [(k, v)]
  | p :: rest, k, v => if p.1 = k then (p.1, v) :: rest else p :: dictInsert rest k v

/-- One step of the running maximum: the head element `x` against the
(index, value) of the first maximum of the tail, if any; the head wins
ties, keeping the first occurrence. -/
def argmaxStep {α : Type u} [LinearOrder α] (x : α) : Option (Nat × α) → Nat × α
  | none => (0, x)
  | some jm => if x < jm.2 then (jm.1 + 1, jm.2) else (0, x)

/-- Model of `np.argmax`, returning the index and value of the first
maximal element; `none` on an empty list, where numpy raises. -/
def argmaxIV {α : Type u} [LinearOrder α] : List α → Option (Nat × α)
  | [] => none
  | x :: xs => some (argmaxStep x (argmaxIV xs))

/-- The index chosen by `np.argmax(scores)` (line 160 of the source). -/
def argmaxFirst {α : Type u} [LinearOrder α] (scores : List α) : Option Nat :=
  (argmaxIV scores).map Prod.fst

/-- Lines 163-164 of the source: `mapping[chosen]` when a mapping is given
and holds the chosen source token, otherwise the chosen token itself. -/
def applyMapping (mapping : Option (List (String × String))) (chosen : String) : String :=
  match mapping with
  | none => chosen
  | some m =>
    match dictGet m chosen with
    | some v => v
    | none => chosen

/-- One iteration of the loop body of `unk_replace` (lines 159-167): a
non-`"UNK"` token passes through; an `"UNK"` token is resolved through
`np.argmax` over its attention row and indexing into `source_tokens`,
either of which can raise (`none`). -/
def resolveToken {α : Type u} [LinearOrder α] (source_tokens : List String)
    (mapping : Option (List (String × String))) (token : String) (scores : List α) :
    Option String :=
  if token = "UNK" then
    match argmaxFirst scores with
    | none => none
    | some idx =>
      match source_tokens[idx]? with
      | none => none
      | some chosen => some (applyMapping mapping chosen)
  else some token

/-- The loop of `unk_replace` over the zipped (token, attention row)
pairs, accumulating the result list; any raised exception aborts the
whole call. -/
def unkReplaceGo {α : Type u} [LinearOrder α] (source_tokens : List String)
    (mapping : Option (List (String × String))) :
    List (String × List α) → Option (List String)
  | [] => some []
  | (token, scores) :: rest =>
    match resolveToken source_tokens mapping token scores, unkReplaceGo source_tokens mapping rest with
    | some y, some ys => some (y :: ys)
    | _, _ => none

/-- Embedding of `unk_replace` (lines 139-168).  The source iterates over
`zip(predicted_tokens, attention_scores)`, which pairs positions up to the
shorter of the two sequences. -/
def unk_replace {α : Type u} [LinearOrder α] (source_tokens : List String)
    (predicted_tokens : List String) (attention_scores : List (List α))
    (mapping : Option (List (String × String))) : Option (List String) :=
  unkReplaceGo source_tokens mapping (predicted_tokens.zip attention_scores)

/-- Slicing index `i` out of every field of a batch: the dict
comprehension `{key: value[i] for key, value in predictions_.items()}`
(line 84); `none` models the `IndexError` raised when some field is too
short. -/
def sliceBatch {V : Type u} : List (String × List V) → Nat → Option (List (String × V))
  | [], _ => some []
  | p :: rest, i =>
    match p.2[i]?, sliceBatch rest i with
    | some v, some r => some ((p.1, v) :: r)
    | _, _ => none

/-- The records produced for a given list of indices into one batch. -/
def batchRecordsFor {V : Type u} (b : List (String × List V)) :
    List Nat → Option (List (List (String × V)))
  | [] => some []
  | i :: is =>
    match sliceBatch b i, batchRecordsFor b is with
    | some r, some rs => some (r :: rs)
    | _, _ => none

/-- Lines 82-84 of the source: the batch size is the leading count of the
FIRST field (`list(predictions_.values())[0].shape[0]`), and one record is
yielded per index `0..batch_size-1`; an empty dict raises (`none`). -/
def processBatch {V : Type u} : List (String × List V) → Option (List (List (String × V)))
  | [] => none
  | p :: rest => batchRecordsFor (p :: rest) (List.range p.2.length)

/-- Embedding of `create_predictions_iter` (lines 78-86).  The execution
source is modelled as the finite list of batches it yields before raising
`OutOfRangeError`; reaching the end of the list is the normal exhaustion
exit of the loop. -/
def create_predictions_iter {V : Type u} : List (List (String × List V)) → Option (List (List (String × V)))
  | [] => some []
  | b :: bs =>
    match processBatch b, create_predictions_iter bs with
    | some rs, some rest => some (rs ++ rest)
    | _, _ => none

/-- Specification-side description of one record: field `j` of the record
is field `j` of the batch evaluated at example index `k`. -/
def specRecord {V : Type u} (b : List (String × List V)) (k : Nat) : List (String × V) :=
  b.filterMap fun p => p.2[k]?.map fun v => (p.1, v)

/-- A well-formed batch of size `s`: at least one field, and every field
carries exactly `s` per-example values. -/
def BatchConsistent {V : Type u} (b : List (String × List V)) (s : Nat) : Prop :=
  b ≠ [] ∧ ∀ p ∈ b, p.2.length = s

/-- Specification-side record stream: for each batch, its records in index
order, batches in arrival order. -/
def specStream {V : Type u} (bs : List (List (String × List V))) (sizes : List Nat) :
    List (List (String × V)) :=
  ((bs.zip sizes).map fun bz => (List.range bz.2).map (specRecord bz.1)).flatten

/-- Splitting a line at tab characters, the model of Python's
`line.split("\t")`: always at least one (possibly empty) field. -/
def splitTabs : List Char → List (List Char)
  | [] => [[]]
  | c :: rest =>
    match splitTabs rest with
    | [] => if c = '\t' then [[], []] else [[c]]
    | f :: fs => if c = '\t' then [] :: f :: fs else (c :: f) :: fs

/-- Python's `str.strip()`: surrounding whitespace removed. -/
def trimChars (l : List Char) : List Char :=
  ((l.dropWhile Char.isWhitespace).reverse.dropWhile Char.isWhitespace).reverse

/-- Line 182, per line: `line.split("\t")[0:2]` handed to `dict(...)`,
which raises (`none`) unless the row has two entries, i.e. unless the
line contains a tab. -/
def parsePair (line : List Char) : Option (List Char × List Char) :=
  match (splitTabs line).take 2 with
  | [k, v] => some (k, v)
  | _ => none

/-- All rows of line 182; the `dict(...)` call raises on the first
one-element row, so any malformed line aborts the whole parse. -/
def parseAll : List (List Char) → Option (List (List Char × List Char))
  | [] => some []
  | l :: ls =>
    match parsePair l, parseAll ls with
    | some p, some ps => some (p :: ps)
    | _, _ => none

/-- Building a dict from a pair list, left to right, starting from `d`:
the model of `dict([...])` (line 182) and of a dict comprehension. -/
def buildDictFrom {α : Type u} {β : Type v} [DecidableEq α] (d : List (α × β)) :
    List (α × β) → List (α × β)
  | [] => d
  | p :: ps => buildDictFrom (dictInsert d p.1 p.2) ps

/-- Line 183's per-item transformation: both components stripped. -/
def trimPair (p : List Char × List Char) : List Char × List Char :=
  (trimChars p.1, trimChars p.2)

/-- Embedding of `get_unk_mapping` (lines 170-184) on the list of lines
read from the file: parse each line's first two tab-separated fields,
build a dict from the raw pairs, then rebuild it with both components
stripped (line 183 iterates the first dict's items in insertion order). -/
def get_unk_mapping (lines : List (List Char)) : Option (List (List Char × List Char)) :=
  match parseAll lines with
  | none => none
  | some ps => some (buildDictFrom [] ((buildDictFrom [] ps).map trimPair))

/-- The value carried by the last pair of the list with the given key;
used to state "last occurrence wins". -/
def lookupLast {α : Type u} {β : Type v} [DecidableEq α] : List (α × β) → α → Option β
  | [], _ => none
  | p :: ps, k =>
    match lookupLast ps k with
    | some v => some v
    | none => if p.1 = k then some p.2 else none

/-! ### Helper lemmas about `unk_replace` -/

theorem unkReplaceGo_length {α : Type u} [LinearOrder α] (src : List String)
    (m : Option (List (String × String))) :
    ∀ (l : List (String × List α)) (ys : List String),
      unkReplaceGo src m l = some ys → ys.length = l.length := by
  intro l
  induction l with
  | nil =>
    intro ys h
    simp only [unkReplaceGo, Option.some.injEq] at h
    simp [← h]
  | cons q rest ih =>
    obtain ⟨tok, sc⟩ := q
    intro ys h
    simp only [unkReplaceGo] at h
    cases hr : resolveToken src m tok sc <;> rw [hr] at h
    · simp at h
    · cases hg : unkReplaceGo src m rest <;> rw [hg] at h
      · simp at h
      · simp only [Option.some.injEq] at h
        subst h
        simp [ih _ hg]

theorem unkReplaceGo_get {α : Type u} [LinearOrder α] (src : List String)
    (m : Option (List (String × String))) :
    ∀ (l : List (String × List α)) (ys : List String),
      unkReplaceGo src m l = some ys →
      ∀ (t : Nat) (p : String × List α), l[t]? = some p →
        ys[t]? = resolveToken src m p.1 p.2 := by
  intro l
  induction l with
  | nil =>
    intro ys _ t p hp
    simp at hp
  | cons q rest ih =>
    obtain ⟨tok, sc⟩ := q
    intro ys h t p hp
    simp only [unkReplaceGo] at h
    cases hr : resolveToken src m tok sc <;> rw [hr] at h
    · simp at h
    · cases hg : unkReplaceGo src m rest <;> rw [hg] at h
      · simp at h
      · simp only [Option.some.injEq] at h
        subst h
        cases t with
        | zero =>
          rw [List.getElem?_cons_zero] at hp
          cases hp
          rw [List.getElem?_cons_zero]
          exact hr.symm
        | succ t =>
          rw [List.getElem?_cons_succ] at hp
          rw [List.getElem?_cons_succ]
          exact ih _ hg t p hp

theorem argmaxIV_eq_none {α : Type u} [LinearOrder α] :
    ∀ l : List α, argmaxIV l = none → l = [] := by
  intro l h
  cases l with
  | nil => rfl
  | cons b bs => simp [argmaxIV] at h

theorem argmaxIV_spec {α : Type u} [LinearOrder α] :
    ∀ (l : List α) (j : Nat) (m : α), argmaxIV l = some (j, m) →
      l[j]? = some m ∧ (∀ x ∈ l, x ≤ m) ∧
        (∀ (i : Nat) (x : α), i < j → l[i]? = some x → x < m) := by
  intro l
  induction l with
  | nil => intro j m h; simp [argmaxIV] at h
  | cons a xs ih =>
    intro j m h
    simp only [argmaxIV, Option.some.injEq] at h
    cases hx : argmaxIV xs <;> rw [hx] at h
    · simp only [argmaxStep] at h
      have hj : j = 0 := congrArg Prod.fst h.symm
      have hm : m = a := congrArg Prod.snd h.symm
      subst hj; subst hm
      have hxs : xs = [] := argmaxIV_eq_none xs hx
      subst hxs
      refine ⟨List.getElem?_cons_zero, ?_, ?_⟩
      · intro x hmem; simp at hmem; simp [hmem]
      · intro i x hi; omega
    · rename_i q
      obtain ⟨j0, m0⟩ := q
      obtain ⟨hget, hmax, hfirst⟩ := ih j0 m0 hx
      simp only [argmaxStep] at h
      split at h
      · rename_i hlt
        have hj : j = j0 + 1 := congrArg Prod.fst h.symm
        have hm : m = m0 := congrArg Prod.snd h.symm
        subst hj; subst hm
        refine ⟨by simpa using hget, ?_, ?_⟩
        · intro x hmem
          rcases List.mem_cons.1 hmem with hx1 | hx2
          · exact hx1 ▸ le_of_lt hlt
          · exact hmax x hx2
        · intro i x hi hg
          cases i with
          | zero =>
            rw [List.getElem?_cons_zero] at hg
            cases hg
            exact hlt
          | succ i =>
            rw [List.getElem?_cons_succ] at hg
            exact hfirst i x (by omega) hg
      · rename_i hnlt
        have hle : m0 ≤ a := le_of_not_lt hnlt
        have hj : j = 0 := congrArg Prod.fst h.symm
        have hm : m = a := congrArg Prod.snd h.symm
        subst hj; subst hm
        refine ⟨List.getElem?_cons_zero, ?_, ?_⟩
        · intro x hmem
          rcases List.mem_cons.1 hmem with hx1 | hx2
          · exact le_of_eq hx1
          · exact le_trans (hmax x hx2) hle
        · intro i x hi; omega

/-! ### Helper lemmas about `create_predictions_iter` -/

theorem sliceBatch_eq_specRecord {V : Type u} :
    ∀ (b : List (String × List V)) (k : Nat), (∀ p ∈ b, k < p.2.length) →
      sliceBatch b k = some (specRecord b k) := by
  intro b k
  induction b with
  | nil => intro _; simp [sliceBatch, specRecord]
  | cons p rest ih =>
    intro h
    have hk : k < p.2.length := h p (List.mem_cons_self p rest)
    have hv : p.2[k]? = some (p.2[k]) := List.getElem?_eq_getElem hk
    have hr := ih fun q hq => h q (List.mem_cons_of_mem p hq)
    simp [sliceBatch, specRecord, List.filterMap_cons, hv, hr]

theorem batchRecordsFor_eq {V : Type u} (b : List (String × List V)) :
    ∀ il : List Nat, (∀ i ∈ il, ∀ p ∈ b, i < p.2.length) →
      batchRecordsFor b il = some (il.map (specRecord b)) := by
  intro il
  induction il with
  | nil => intro _; simp [batchRecordsFor]
  | cons i is ih =>
    intro h
    have h1 := sliceBatch_eq_specRecord b i (h i (List.mem_cons_self i is))
    have h2 := ih fun j hj => h j (List.mem_cons_of_mem i hj)
    simp [batchRecordsFor, h1, h2]

theorem processBatch_eq {V : Type u} (b : List (String × List V)) (s : Nat)
    (h : BatchConsistent b s) :
    processBatch b = some ((List.range s).map (specRecord b)) := by
  obtain ⟨hne, hall⟩ := h
  cases b with
  | nil => exact absurd rfl hne
  | cons p rest =>
    have hps : p.2.length = s := hall p (List.mem_cons_self p rest)
    simp only [processBatch, hps]
    exact batchRecordsFor_eq (p :: rest) (List.range s)
      fun i hi q hq => by rw [hall q hq]; exact List.mem_range.1 hi

theorem specRecord_length {V : Type u} :
    ∀ (b : List (String × List V)) (k : Nat), (∀ p ∈ b, k < p.2.length) →
      (specRecord b k).length = b.length := by
  intro b k
  induction b with
  | nil => intro _; rfl
  | cons p rest ih =>
    intro h
    have hk : k < p.2.length := h p (List.mem_cons_self p rest)
    have hv : p.2[k]? = some (p.2[k]) := List.getElem?_eq_getElem hk
    have hr := ih fun q hq => h q (List.mem_cons_of_mem p hq)
    simp [specRecord, List.filterMap_cons, hv]
    simpa [specRecord] using hr

theorem specRecord_get {V : Type u} :
    ∀ (b : List (String × List V)) (k : Nat), (∀ p ∈ b, k < p.2.length) →
      ∀ j : Nat, (specRecord b k)[j]? =
        b[j]?.bind fun p => p.2[k]?.map fun v => (p.1, v) := by
  intro b k
  induction b with
  | nil => intro _ j; simp [specRecord]
  | cons p rest ih =>
    intro h j
    have hk : k < p.2.length := h p (List.mem_cons_self p rest)
    have hv : p.2[k]? = some (p.2[k]) := List.getElem?_eq_getElem hk
    have hr := ih (fun q hq => h q (List.mem_cons_of_mem p hq))
    cases j with
    | zero => simp [specRecord, List.filterMap_cons, hv]
    | succ j =>
      simp only [specRecord, List.filterMap_cons, hv, Option.map_some]
      simpa [specRecord] using hr j

theorem sliceBatch_eq_none_iff {V : Type u} :
    ∀ (b : List (String × List V)) (i : Nat),
      sliceBatch b i = none ↔ ∃ q ∈ b, q.2.length ≤ i := by
  intro b i
  induction b with
  | nil => simp [sliceBatch]
  | cons p rest ih =>
    constructor
    · intro h
      simp only [sliceBatch] at h
      cases hv : p.2[i]? <;> rw [hv] at h
      · exact ⟨p, List.mem_cons_self p rest, List.getElem?_eq_none_iff.1 hv⟩
      · cases hs : sliceBatch rest i <;> rw [hs] at h
        · obtain ⟨q, hq, hle⟩ := ih.1 hs
          exact ⟨q, List.mem_cons_of_mem p hq, hle⟩
        · simp at h
    · rintro ⟨q, hq, hle⟩
      simp only [sliceBatch]
      rcases List.mem_cons.1 hq with rfl | hq2
      · rw [List.getElem?_eq_none hle]
      · rw [ih.2 ⟨q, hq2, hle⟩]
        cases p.2[i]? <;> rfl

theorem batchRecordsFor_eq_none_iff {V : Type u} (b : List (String × List V)) :
    ∀ il : List Nat, batchRecordsFor b il = none ↔ ∃ i ∈ il, sliceBatch b i = none := by
  intro il
  induction il with
  | nil => simp [batchRecordsFor]
  | cons i is ih =>
    constructor
    · intro h
      simp only [batchRecordsFor] at h
      cases hs : sliceBatch b i <;> rw [hs] at h
      · exact ⟨i, List.mem_cons_self i is, hs⟩
      · cases hr : batchRecordsFor b is <;> rw [hr] at h
        · obtain ⟨j, hj, hsj⟩ := ih.1 hr
          exact ⟨j, List.mem_cons_of_mem i hj, hsj⟩
        · simp at h
    · rintro ⟨j, hj, hsj⟩
      simp only [batchRecordsFor]
      rcases List.mem_cons.1 hj with rfl | hj2
      · rw [hsj]
      · rw [ih.2 ⟨j, hj2, hsj⟩]
        cases sliceBatch b i <;> rfl

/-! ### Helper lemmas about dicts and `get_unk_mapping` -/

theorem dictGet_dictInsert {α : Type u} {β : Type v} [DecidableEq α] :
    ∀ (d : List (α × β)) (a : α) (b : β) (k : α),
      dictGet (dictInsert d a b) k = if a = k then some b else dictGet d k := by
  intro d a b k
  induction d with
  | nil => simp [dictInsert, dictGet]
  | cons p rest ih =>
    simp only [dictInsert]
    by_cases hpa : p.1 = a
    · rw [if_pos hpa]
      simp only [dictGet]
      rw [hpa]
      by_cases hak : a = k <;> simp [hak]
    · rw [if_neg hpa]
      simp only [dictGet, ih]
      by_cases hak : a = k
      · subst hak
        simp [hpa]
      · simp [hak]

theorem dictGet_buildDictFrom {α : Type u} {β : Type v} [DecidableEq α] :
    ∀ (ps d : List (α × β)) (k : α),
      dictGet (buildDictFrom d ps) k =
        match lookupLast ps k with
        | some v => some v
        | none => dictGet d k := by
  intro ps
  induction ps with
  | nil => intro d k; simp [buildDictFrom, lookupLast]
  | cons p ps ih =>
    intro d k
    simp only [buildDictFrom, lookupLast]
    rw [ih]
    cases lookupLast ps k with
    | some v => rfl
    | none =>
      rw [dictGet_dictInsert]
      by_cases h : p.1 = k <;> simp [h]

theorem dictGet_buildDict {α : Type u} {β : Type v} [DecidableEq α]
    (ps : List (α × β)) (k : α) :
    dictGet (buildDictFrom [] ps) k = lookupLast ps k := by
  rw [dictGet_buildDictFrom]
  cases lookupLast ps k <;> simp [dictGet]

theorem mem_dictInsert {α : Type u} {β : Type v} [DecidableEq α] :
    ∀ (d : List (α × β)) (a : α) (b : β) (q : α × β),
      q ∈ dictInsert d a b → q ∈ d ∨ q = (a, b) := by
  intro d a b q
  induction d with
  | nil => intro h; simp [dictInsert] at h; simp [h]
  | cons p rest ih =>
    intro h
    simp only [dictInsert] at h
    by_cases hpa : p.1 = a
    · rw [if_pos hpa] at h
      rcases List.mem_cons.1 h with h0 | h0
      · right; rw [h0, hpa]
      · left; exact List.mem_cons_of_mem p h0
    · rw [if_neg hpa] at h
      rcases List.mem_cons.1 h with h0 | h0
      · left; exact h0 ▸ List.mem_cons_self p rest
      · rcases ih h0 with h1 | h1
        · left; exact List.mem_cons_of_mem p h1
        · right; exact h1

theorem mem_buildDictFrom {α : Type u} {β : Type v} [DecidableEq α] :
    ∀ (ps d : List (α × β)) (q : α × β),
      q ∈ buildDictFrom d ps → q ∈ d ∨ q ∈ ps := by
  intro ps
  induction ps with
  | nil => intro d q h; exact Or.inl h
  | cons p ps ih =>
    intro d q h
    rcases ih (dictInsert d p.1 p.2) q h with h0 | h0
    · rcases mem_dictInsert d p.1 p.2 q h0 with h1 | h1
      · exact Or.inl h1
      · right
        rw [h1]
        exact List.mem_cons_self p ps
    · exact Or.inr (List.mem_cons_of_mem p h0)

theorem keys_dictInsert {α : Type u} {β : Type v} [DecidableEq α] :
    ∀ (d : List (α × β)) (a : α) (b : β),
      (dictInsert d a b).map Prod.fst =
        if a ∈ d.map Prod.fst then d.map Prod.fst else d.map Prod.fst ++ [a] := by
  intro d a b
  induction d with
  | nil => simp [dictInsert]
  | cons p rest ih =>
    by_cases hpa : p.1 = a
    · simp [dictInsert, hpa]
    · simp only [dictInsert, if_neg hpa, List.map_cons, ih]
      have hne : ¬a = p.1 := fun h => hpa h.symm
      by_cases hmem : a ∈ rest.map Prod.fst <;>
        simp [List.mem_cons, hne, hmem]

theorem nodupKeys_buildDictFrom {α : Type u} {β : Type v} [DecidableEq α] :
    ∀ (ps d : List (α × β)), (d.map Prod.fst).Nodup →
      ((buildDictFrom d ps).map Prod.fst).Nodup := by
  intro ps
  induction ps with
  | nil => intro d h; exact h
  | cons p ps ih =>
    intro d h
    refine ih (dictInsert d p.1 p.2) ?_
    rw [keys_dictInsert]
    by_cases hmem : p.1 ∈ d.map Prod.fst
    · rw [if_pos hmem]; exact h
    · rw [if_neg hmem]
      simp [List.nodup_append, h, hmem]

theorem lookupLast_eq_none {α : Type u} {β : Type v} [DecidableEq α] :
    ∀ (l : List (α × β)) (k : α), k ∉ l.map Prod.fst → lookupLast l k = none := by
  intro l k
  induction l with
  | nil => intro _; rfl
  | cons p rest ih =>
    intro h
    have h1 : k ≠ p.1 := fun hk => h (by simp [hk])
    have h2 : k ∉ rest.map Prod.fst := fun hk => h (by simp [hk])
    simp only [lookupLast, ih h2]
    rw [if_neg (fun hp => h1 hp.symm)]

theorem lookupLast_eq_dictGet {α : Type u} {β : Type v} [DecidableEq α] :
    ∀ (l : List (α × β)) (k : α), (l.map Prod.fst).Nodup →
      lookupLast l k = dictGet l k := by
  intro l k
  induction l with
  | nil => intro _; rfl
  | cons p rest ih =>
    intro h
    rw [List.map_cons, List.nodup_cons] at h
    obtain ⟨hp, hrest⟩ := h
    simp only [lookupLast, dictGet]
    by_cases hpk : p.1 = k
    · have hnk : k ∉ rest.map Prod.fst := hpk ▸ hp
      rw [lookupLast_eq_none rest k hnk]
      simp [hpk]
    · rw [ih hrest, if_neg hpk, if_neg hpk]
      cases dictGet rest k <;> rfl

theorem lookupLast_map_trimPair :
    ∀ (D : List (List Char × List Char)) (k : List Char),
      (∀ q ∈ D, trimChars q.1 = q.1) →
      lookupLast (D.map trimPair) k = (lookupLast D k).map trimChars := by
  intro D k
  induction D with
  | nil => intro _; rfl
  | cons q rest ih =>
    intro h
    have hq : trimChars q.1 = q.1 := h q (List.mem_cons_self q rest)
    have hr := ih fun p hp => h p (List.mem_cons_of_mem q hp)
    simp only [List.map_cons, lookupLast, hr, trimPair, hq]
    cases lookupLast rest k with
    | some v => rfl
    | none =>
      simp only [Option.map_none]
      by_cases hk : q.1 = k <;> simp [hk]

/-! ### Claim theorems -/

/-- C1 (counterexample): called with 1 attention row but 2 predicted
tokens, `unk_replace` does not fail; it returns a silently truncated
output of length 1, refuting the claim that a shape violation always
raises an error. -/
theorem unk_replace_truncation_cex :
    unk_replace ["s"] ["a", "b"] [[(1 : Int)]] none = some ["a"] ∧
    ([[(1 : Int)]] : List (List Int)).length < (["a", "b"] : List String).length := by
  constructor
  · decide
  · decide

/-- C1 (amended): whenever `unk_replace` returns a result, its length is
the minimum of the predicted length and the number of attention rows:
when the attention matrix has fewer rows than there are predicted tokens
the output is silently truncated to the rows, and no error is raised for
that reason. -/
theorem unk_replace_length_min {α : Type u} [LinearOrder α] (src pred : List String)
    (att : List (List α)) (m : Option (List (String × String))) (ys : List String)
    (h : unk_replace src pred att m = some ys) :
    ys.length = min pred.length att.length := by
  have hl := unkReplaceGo_length src m (pred.zip att) ys h
  simpa [List.length_zip] using hl

theorem unk_replace_length_min_witness :
    unk_replace ["s"] ["x", "y"] [[(1 : Int)]] none = some ["x"] ∧
    (["x"] : List String).length =
      min (["x", "y"] : List String).length ([[(1 : Int)]] : List (List Int)).length := by
  have h : unk_replace ["s"] ["x", "y"] [[(1 : Int)]] none = some ["x"] := by decide
  exact ⟨h, unk_replace_length_min ["s"] ["x", "y"] [[(1 : Int)]] none ["x"] h⟩

/-- C3: the index chosen by `argmaxFirst` (the embedded `np.argmax` of
line 160) is the lowest index among the maxima of the row: the value
there bounds every entry, and every strictly earlier entry is strictly
smaller; moreover `unk_replace` on the row `[0.5, 0.9, 0.9, 0.1]`
resolves the `"UNK"` to the source token at index 1, the first of the
two tied maxima. -/
theorem argmax_first_occurrence :
    (∀ (scores : List ℚ) (j : Nat), argmaxFirst scores = some j →
      ∃ m, scores[j]? = some m ∧ (∀ x ∈ scores, x ≤ m) ∧
        (∀ (i : Nat) (x : ℚ), i < j → scores[i]? = some x → x < m)) ∧
    unk_replace ["w", "x", "y", "z"] ["UNK"] [[(1 : ℚ)/2, 9/10, 9/10, 1/10]] none =
      some ["x"] := by
  constructor
  · intro scores j hj
    cases hq : argmaxIV scores with
    | none => simp [argmaxFirst, hq] at hj
    | some q =>
      obtain ⟨j0, m⟩ := q
      simp only [argmaxFirst, hq, Option.map_some] at hj
      obtain rfl : j0 = j := by simpa using hj
      exact ⟨m, argmaxIV_spec scores j0 m hq⟩
  · norm_num [unk_replace, unkReplaceGo, resolveToken, argmaxFirst, argmaxIV, argmaxStep,
      applyMapping]

theorem argmax_first_occurrence_witness :
    argmaxFirst [(1 : ℚ)/2, 9/10, 9/10, 1/10] = some 1 ∧
    ∀ x ∈ [(1 : ℚ)/2, 9/10, 9/10, 1/10], x ≤ 9/10 := by
  have h : argmaxFirst [(1 : ℚ)/2, 9/10, 9/10, 1/10] = some 1 := by
    norm_num [argmaxFirst, argmaxIV, argmaxStep]
  obtain ⟨m, hm, hmax, hlow⟩ := argmax_first_occurrence.1 _ 1 h
  have hm9 : m = 9/10 := by
    rw [List.getElem?_cons_succ, List.getElem?_cons_zero] at hm
    exact (Option.some.injEq _ _ ▸ hm).symm
  exact ⟨h, hm9 ▸ hmax⟩

/-- C9: any predicted token different from the sentinel `"UNK"` passes
through `unk_replace` unchanged, at its own position, for every source
sequence, attention matrix and mapping for which the call returns. -/
theorem unk_replace_pass_through {α : Type u} [LinearOrder α]
    (src pred : List String) (att : List (List α)) (m : Option (List (String × String)))
    (ys : List String) (h : unk_replace src pred att m = some ys)
    (t : Nat) (tok : String) (hp : pred[t]? = some tok) (hne : tok ≠ "UNK")
    (sc : List α) (hsc : att[t]? = some sc) :
    ys[t]? = some tok := by
  have hz : (pred.zip att)[t]? = some (tok, sc) :=
    List.getElem?_zip_eq_some.2 ⟨hp, hsc⟩
  have hy := unkReplaceGo_get src m (pred.zip att) ys h t (tok, sc) hz
  rw [hy]
  simp [resolveToken, hne]

theorem unk_replace_pass_through_witness :
    unk_replace ["s"] ["hello"] [[(1 : Int)]] none = some ["hello"] ∧
    (["hello"] : List String)[0]? = some "hello" := by
  have h : unk_replace ["s"] ["hello"] [[(1 : Int)]] none = some ["hello"] := by decide
  exact ⟨h, unk_replace_pass_through ["s"] ["hello"] [[(1 : Int)]] none ["hello"] h
    0 "hello" rfl (by decide) [(1 : Int)] rfl⟩

theorem unkReplaceGo_no_sentinel {α : Type u} [LinearOrder α] (src : List String)
    (m : Option (List (String × String))) :
    ∀ l : List (String × List α), (∀ p ∈ l, p.1 ≠ "UNK") →
      unkReplaceGo src m l = some (l.map Prod.fst) := by
  intro l
  induction l with
  | nil => intro _; rfl
  | cons p rest ih =>
    intro h
    obtain ⟨tok, sc⟩ := p
    have h1 : tok ≠ "UNK" := h (tok, sc) (List.mem_cons_self _ rest)
    have h2 := ih fun q hq => h q (List.mem_cons_of_mem _ hq)
    simp [unkReplaceGo, resolveToken, h1, h2]

/-- C10: when no predicted token equals the literal sentinel `"UNK"`,
`unk_replace` returns the predicted tokens unchanged and raises no
error, even when `source_tokens` is empty; the empty-row argmax error
branch is reachable only at a position holding the sentinel. -/
theorem unk_replace_no_sentinel {α : Type u} [LinearOrder α]
    (src pred : List String) (att : List (List α)) (m : Option (List (String × String)))
    (hn : "UNK" ∉ pred) (hlen : pred.length ≤ att.length) :
    unk_replace src pred att m = some pred := by
  have hmap : (pred.zip att).map Prod.fst = pred := List.map_fst_zip pred att hlen
  have hall : ∀ p ∈ pred.zip att, p.1 ≠ "UNK" := by
    intro p hp hcon
    apply hn
    have hmem : p.1 ∈ (pred.zip att).map Prod.fst := List.mem_map_of_mem Prod.fst hp
    rw [hmap] at hmem
    exact hcon ▸ hmem
  unfold unk_replace
  rw [unkReplaceGo_no_sentinel src m (pred.zip att) hall, hmap]

theorem unk_replace_no_sentinel_witness :
    unk_replace ([] : List String) ["a", "b"] ([[], []] : List (List Int)) none =
      some ["a", "b"] :=
  unk_replace_no_sentinel [] ["a", "b"] [[], []] none (by decide) (by decide)

/-- C5: at a sentinel position, with `chosen` the source token at the
argmax of that row, the output token is `mapping[chosen]` when a mapping
is supplied and holds `chosen` as a key, and `chosen` itself otherwise
(mapping absent or key missing); concretely, the spec instance with
source `["paris", "france"]` and attention row `[0.1, 0.9]` produces
`"La France"` under the mapping and `"france"` without it. -/
theorem unk_replace_mapping_fallback :
    (∀ (src pred : List String) (att : List (List ℚ))
      (m : Option (List (String × String))) (ys : List String)
      (t : Nat) (sc : List ℚ) (j : Nat) (chosen : String),
      unk_replace src pred att m = some ys →
      pred[t]? = some "UNK" →
      att[t]? = some sc →
      argmaxFirst sc = some j →
      src[j]? = some chosen →
      ((m = none → ys[t]? = some chosen) ∧
       (∀ mp, m = some mp → ∀ v, dictGet mp chosen = some v → ys[t]? = some v) ∧
       (∀ mp, m = some mp → dictGet mp chosen = none → ys[t]? = some chosen))) ∧
    unk_replace ["paris", "france"] ["UNK", "is", "great"]
      [[(1 : ℚ)/10, 9/10], [1, 0], [1, 0]] (some [("france", "La France")]) =
      some ["La France", "is", "great"] ∧
    unk_replace ["paris", "france"] ["UNK", "is", "great"]
      [[(1 : ℚ)/10, 9/10], [1, 0], [1, 0]] none =
      some ["france", "is", "great"] := by
  refine ⟨?_, ?_, ?_⟩
  · intro src pred att m ys t sc j chosen h hp hsc hj hchosen
    have hz : (pred.zip att)[t]? = some ("UNK", sc) :=
      List.getElem?_zip_eq_some.2 ⟨hp, hsc⟩
    have hy := unkReplaceGo_get src m (pred.zip att) ys h t ("UNK", sc) hz
    have hys : ys[t]? = some (applyMapping m chosen) := by
      rw [hy]
      simp [resolveToken, hj, hchosen]
    refine ⟨?_, ?_, ?_⟩
    · rintro rfl
      simpa [applyMapping] using hys
    · rintro mp rfl v hv
      simpa [applyMapping, hv] using hys
    · rintro mp rfl hv
      simpa [applyMapping, hv] using hys
  · norm_num [unk_replace, unkReplaceGo, resolveToken, argmaxFirst, argmaxIV, argmaxStep,
      applyMapping, dictGet]
    decide
  · norm_num [unk_replace, unkReplaceGo, resolveToken, argmaxFirst, argmaxIV, argmaxStep,
      applyMapping, dictGet]
    decide

theorem unk_replace_mapping_fallback_witness :
    (["La France", "is", "great"] : List String)[0]? = some "La France" ∧
    (["france", "is", "great"] : List String)[0]? = some "france" := by
  have hargmax : argmaxFirst [(1 : ℚ)/10, 9/10] = some 1 := by
    norm_num [argmaxFirst, argmaxIV, argmaxStep]
  constructor
  · exact (unk_replace_mapping_fallback.1 ["paris", "france"] ["UNK", "is", "great"]
      [[(1 : ℚ)/10, 9/10], [1, 0], [1, 0]] (some [("france", "La France")])
      ["La France", "is", "great"] 0 [(1 : ℚ)/10, 9/10] 1 "france"
      unk_replace_mapping_fallback.2.1 rfl rfl hargmax rfl).2.1
      [("france", "La France")] rfl "La France" (by decide)
  · exact (unk_replace_mapping_fallback.1 ["paris", "france"] ["UNK", "is", "great"]
      [[(1 : ℚ)/10, 9/10], [1, 0], [1, 0]] none
      ["france", "is", "great"] 0 [(1 : ℚ)/10, 9/10] 1 "france"
      unk_replace_mapping_fallback.2.2 rfl rfl hargmax rfl).1 rfl

/-- C2: for a sequence of well-formed batches of sizes `s1..sn`, the
streamer emits exactly `s1+...+sn` records, namely, batch by batch in
arrival order and index by index in increasing order, the record slicing
every field of the batch at that index. -/
theorem create_predictions_iter_order {V : Type u} (bs : List (List (String × List V)))
    (sizes : List Nat) (h : List.Forall₂ BatchConsistent bs sizes) :
    create_predictions_iter bs = some (specStream bs sizes) ∧
    (specStream bs sizes).length = sizes.sum ∧
    (∀ (b : List (String × List V)) (k : Nat), (∀ p ∈ b, k < p.2.length) →
      (specRecord b k).length = b.length ∧
      ∀ j : Nat, (specRecord b k)[j]? = b[j]?.bind fun p => p.2[k]?.map fun v => (p.1, v)) := by
  refine ⟨?_, ?_, fun b k hk => ⟨specRecord_length b k hk, specRecord_get b k hk⟩⟩
  · induction h with
    | nil => rfl
    | cons hab hrest ih =>
      rename_i a b l1 l2
      have hpb := processBatch_eq a b hab
      simp only [create_predictions_iter, hpb, ih]
      simp [specStream]
  · induction h with
    | nil => rfl
    | cons hab hrest ih =>
      rename_i a b l1 l2
      simp only [specStream, List.zip_cons_cons, List.map_cons, List.flatten_cons,
        List.length_append, List.length_map, List.length_range, List.sum_cons]
      simp only [specStream] at ih
      omega

theorem create_predictions_iter_order_witness :
    create_predictions_iter [[("a", [(1 : Nat), 2])], [("b", [3])]] =
      some [[("a", 1)], [("a", 2)], [("b", 3)]] := by
  have h : List.Forall₂ BatchConsistent [[("a", [(1 : Nat), 2])], [("b", [3])]] [2, 1] :=
    List.Forall₂.cons ⟨by decide, by decide⟩
      (List.Forall₂.cons ⟨by decide, by decide⟩ List.Forall₂.nil)
  rw [(create_predictions_iter_order _ _ h).1]
  decide

/-- C4: exhaustion of the execution source ends the stream as a normal
return (the empty batch list yields `some []`, not an error); a batch of
size 0 contributes no records and does not end the stream; and the
concrete source yielding sizes [2, 0, 3] then exhaustion produces
exactly 5 records. -/
theorem create_predictions_iter_exhaustion :
    (∀ (V : Type) (p : String × List V) (rest : List (String × List V))
      (bs : List (List (String × List V))), p.2 = [] →
      create_predictions_iter ((p :: rest) :: bs) = create_predictions_iter bs) ∧
    create_predictions_iter ([] : List (List (String × List Nat))) = some [] ∧
    create_predictions_iter [[("t", [(10 : Nat), 20])], [("t", [])], [("t", [30, 40, 50])]] =
      some [[("t", 10)], [("t", 20)], [("t", 30)], [("t", 40)], [("t", 50)]] ∧
    ([[("t", (10 : Nat))], [("t", 20)], [("t", 30)], [("t", 40)], [("t", 50)]] :
      List (List (String × Nat))).length = 5 := by
  refine ⟨?_, rfl, by decide, rfl⟩
  intro V p rest bs hp
  have hpb : processBatch (p :: rest) = some [] := by
    simp [processBatch, hp, batchRecordsFor]
  cases hbs : create_predictions_iter bs <;>
    simp [create_predictions_iter, hpb, hbs]

theorem create_predictions_iter_exhaustion_witness :
    create_predictions_iter [[("t", ([] : List Nat))], [("u", [(7 : Nat)])]] =
      some [[("u", 7)]] := by
  rw [create_predictions_iter_exhaustion.1 Nat ("t", []) [] [[("u", [7])]] rfl]
  decide

/-- C6 (counterexample): a batch whose second field carries two values
while the first carries one is inconsistent, yet the streamer produces a
record rather than failing, refuting the claim that any disagreement in
leading counts is a fatal error. -/
theorem batch_mismatch_cex :
    create_predictions_iter [[("a", [(0 : Nat)]), ("b", [1, 2])]] =
      some [[("a", 0), ("b", 1)]] ∧
    ([(0 : Nat)] : List Nat).length ≠ ([1, 2] : List Nat).length := by
  exact ⟨by decide, by decide⟩

/-- C6 (amended): processing a single batch fails (with the modelled
`IndexError`) exactly when some field holds fewer values than the first
field, whose count fixes the batch size; a field holding more values
than the first is silently cut to the first field's count and raises
nothing. -/
theorem batch_mismatch_error_iff (V : Type) (p : String × List V)
    (rest : List (String × List V)) :
    create_predictions_iter [p :: rest] = none ↔ ∃ q ∈ rest, q.2.length < p.2.length := by
  have h1 : create_predictions_iter [p :: rest] = none ↔ processBatch (p :: rest) = none := by
    cases hp : processBatch (p :: rest) <;> simp [create_predictions_iter, hp]
  rw [h1]
  simp only [processBatch]
  rw [batchRecordsFor_eq_none_iff]
  constructor
  · rintro ⟨i, hi, hs⟩
    rw [sliceBatch_eq_none_iff] at hs
    obtain ⟨q, hq, hlen⟩ := hs
    have hir : i < p.2.length := List.mem_range.1 hi
    rcases List.mem_cons.1 hq with rfl | h0
    · exact absurd hir (not_lt.2 hlen)
    · exact ⟨q, h0, lt_of_le_of_lt hlen hir⟩
  · rintro ⟨q, hq, hlen⟩
    refine ⟨q.2.length, List.mem_range.2 hlen, ?_⟩
    rw [sliceBatch_eq_none_iff]
    exact ⟨q, List.mem_cons_of_mem p hq, le_refl _⟩

theorem parsePair_eq_none_iff (l : List Char) :
    parsePair l = none ↔ (splitTabs l).length < 2 := by
  simp only [parsePair]
  cases hs : splitTabs l with
  | nil => simp
  | cons a t =>
    cases t with
    | nil => simp
    | cons b t2 =>
      have ht : (a :: b :: t2).take 2 = [a, b] := rfl
      rw [ht]
      simp

theorem parseAll_eq_none (lines : List (List Char)) (l : List Char)
    (hl : l ∈ lines) (h : parsePair l = none) : parseAll lines = none := by
  induction lines with
  | nil => simp at hl
  | cons x xs ih =>
    rcases List.mem_cons.1 hl with rfl | h0
    · simp [parseAll, h]
    · have hxs := ih h0
      cases hx : parsePair x <;> simp [parseAll, hx, hxs]

/-- C7: a mapping file holding any line with fewer than two tab-separated
fields makes `get_unk_mapping` fail (the modelled `dict(...)` raises on a
one-element row), returning no table at all. -/
theorem get_unk_mapping_malformed (lines : List (List Char))
    (h : ∃ l ∈ lines, (splitTabs l).length < 2) :
    get_unk_mapping lines = none := by
  obtain ⟨l, hl, hlen⟩ := h
  have hp : parsePair l = none := (parsePair_eq_none_iff l).2 hlen
  have hall : parseAll lines = none := parseAll_eq_none lines l hl hp
  simp [get_unk_mapping, hall]

theorem get_unk_mapping_malformed_witness :
    (splitTabs ['a', 'b']).length < 2 ∧ get_unk_mapping [['a', 'b']] = none := by
  have h : (splitTabs ['a', 'b']).length < 2 := by decide
  exact ⟨h, get_unk_mapping_malformed [['a', 'b']]
    ⟨['a', 'b'], List.mem_cons_self _ _, h⟩⟩

/-- C8 (counterexample): three lines whose keys trim to the same token
`"a"` ("a \tx", "a\ty", "a \tz"); the last such line maps it to "z",
but the built table maps "a" to "y", the value of the middle line,
refuting "last line wins" as stated. -/
theorem get_unk_mapping_last_wins_cex :
    get_unk_mapping [['a', ' ', '\t', 'x'], ['a', '\t', 'y'], ['a', ' ', '\t', 'z']] =
      some [(['a'], ['y'])] ∧
    dictGet [(['a'], ['y'])] ['a'] = some ['y'] ∧ (['y'] : List Char) ≠ ['z'] := by
  exact ⟨by decide, by decide, by decide⟩

/-- C8 (amended): when every parsed key field is already free of
surrounding whitespace, the table built by `get_unk_mapping` maps each
key to the trimmed target of the last line carrying that key; with keys
differing only in whitespace the surviving value can come from an
earlier line instead. -/
theorem get_unk_mapping_last_wins (lines : List (List Char))
    (ps : List (List Char × List Char)) (hp : parseAll lines = some ps)
    (htrim : ∀ p ∈ ps, trimChars p.1 = p.1)
    (d : List (List Char × List Char)) (hd : get_unk_mapping lines = some d)
    (k : List Char) :
    dictGet d k = (lookupLast ps k).map trimChars := by
  have hdval : d = buildDictFrom [] ((buildDictFrom [] ps).map trimPair) := by
    simp only [get_unk_mapping, hp] at hd
    exact (Option.some.inj hd).symm
  subst hdval
  have hnodup : ((buildDictFrom [] ps).map Prod.fst).Nodup :=
    nodupKeys_buildDictFrom ps [] (by simp)
  have htrimD : ∀ q ∈ buildDictFrom [] ps, trimChars q.1 = q.1 := by
    intro q hq
    rcases mem_buildDictFrom ps [] q hq with h0 | h0
    · simp at h0
    · exact htrim q h0
  rw [dictGet_buildDict, lookupLast_map_trimPair (buildDictFrom [] ps) k htrimD,
    lookupLast_eq_dictGet (buildDictFrom [] ps) k hnodup, dictGet_buildDict]

theorem get_unk_mapping_last_wins_witness :
    dictGet [(['a'], ['y'])] ['a'] = some ['y'] := by
  have h := get_unk_mapping_last_wins [['a', '\t', 'x'], ['a', '\t', 'y']]
    [(['a'], ['x']), (['a'], ['y'])] (by decide) (by decide)
    [(['a'], ['y'])] (by decide) ['a']
  exact h.trans (by decide)
